import Mathlib

/-!
Verification development for an out-of-core record-sorting pipeline.

The program sorts a binary file of variable-length records (8-byte key,
4-byte length, opaque payload) through an in-memory index of fixed-size
entries.  This file gives a shallow embedding of the pure computational
content of the C++ sources (`utils.hpp`, `omp_mmap.cpp`, `mpi_omp_mmap.cpp`,
`fastflow.cpp`, `ff_mmap.cpp`):

* files are lists of bytes (natural numbers below 256 in well-formed files);
* machine integers are naturals or integers with explicit `% 2 ^ w`
  wraparound where the C arithmetic can overflow;
* each C function the claims touch becomes an executable Lean function with
  the same name, translated branch by branch;
* concurrency is modelled by the data each participant holds and the order
  of the messages or notifications, never by real time.
-/

/-- In-memory index entry, mirroring `IndexRec` in `utils.hpp`:
`{key : unsigned long, offset : uint64_t, len : uint32_t}`. -/
structure IndexRec where
  key : ℕ
  offset : ℕ
  len : ℕ
  deriving DecidableEq, Repr

/-- Key order on index entries: the comparator `a.key < b.key` of
`sort_records` / `merge_records` sorts ascending by this relation. -/
def keyLE (a b : IndexRec) : Prop := a.key ≤ b.key

instance : DecidableRel keyLE := fun a b => Nat.decLe a.key b.key

/-- The state of `ProgressGate` (`utils.hpp`): the mutex-protected counter
`filled`.  Only the counter value matters for the claims; the mutex and the
condition variable serialize the calls, which we model by applying the
operations in sequence. -/
structure ProgressGate where
  filled : ℕ
  deriving DecidableEq, Repr

/-- `ProgressGate::notify(filled_now)` from `utils.hpp`: the source performs
the plain assignment `filled = filled_now` under the lock (there is no
`max`), then wakes all waiters. -/
def ProgressGate.notify (_g : ProgressGate) (filled_now : ℕ) : ProgressGate :=
  ⟨filled_now⟩

/-- The sequence of arguments `build_index_mmap` (`utils.hpp`, the gate of
`ff_mmap.cpp`) passes to `gate->notify`: for `i = 0 .. n-1` it calls
`notify(i+1)` whenever `(i+1) % notify_every == 0`, and after the loop it
always calls `notify(n)`. -/
def gate_notify_args (n notify_every : ℕ) : List ℕ :=
  ((List.range n).filter fun i => (i + 1) % notify_every == 0).map (fun i => i + 1) ++ [n]

/-- 32-bit `int` value obtained by converting a natural number the way C++
converts an unsigned value to `int` (reduce mod `2^32`, reinterpret the top
bit as the sign). -/
def toInt32 (n : ℕ) : ℤ :=
  if n % 2 ^ 32 < 2 ^ 31 then (n % 2 ^ 32 : ℕ) else (n % 2 ^ 32 : ℕ) - 2 ^ 32

/-- The shape of the computation performed by one call to `mergesort_task`
(identical branch structure in `omp_mmap.cpp` and `mpi_omp_mmap.cpp`):
either return immediately, or gate on `filled ≥ wait` and base-sort
`[lo, hi]`, or recurse on the two halves and merge `[mlo, mmid, mhi]`. -/
inductive SortPlan where
  | done
  | leaf (wait lo hi : ℕ)
  | split (mid : ℕ) (lhs rhs : SortPlan) (mlo mmid mhi : ℕ)
  deriving DecidableEq, Repr

/-- `mergesort_task(base, left, right, cutoff)` from `omp_mmap.cpp`
(lines 91-116; `mpi_omp_mmap.cpp` lines 12-30 is identical except that its
leaf performs no gate wait).  The source:
`if (left >= right) return;` then
`if (static_cast<int>(right - left) > cutoff)` spawn the two recursive
tasks on `[left, mid]`, `[mid+1, right]` and merge, `else` wait for
`right + 1` entries and base-sort.  `right - left` is a `std::size_t`
difference cast to `int`, and `cutoff` is the `int` parameter. -/
def mergesort_task (left right : ℕ) (cutoff : ℤ) : SortPlan :=
  if left ≥ right then .done
  else if toInt32 (right - left) > cutoff then
    .split ((left + right) / 2)
      (mergesort_task left ((left + right) / 2) cutoff)
      (mergesort_task ((left + right) / 2 + 1) right cutoff)
      left ((left + right) / 2) right
  else .leaf (right + 1) left right
termination_by right - left
decreasing_by
  · omega
  · omega

/-- Byte fetched from a mapped file at position `pos`.  Reads beyond the
mapped length have no stable value in the source; the model returns 0 there
and the scanners below track such accesses separately. -/
def byteAt (file : List ℕ) (pos : ℕ) : ℕ :=
  file.getD pos 0

/-- Little-endian load of `w` bytes starting at `pos`, as performed by the
`memcpy` header reads of `build_index_mmap` and the direct casts of
`check_if_sorted_mmap`. -/
def readLE (file : List ℕ) (pos w : ℕ) : ℕ :=
  (List.range w).foldr (fun i acc => acc * 256 + byteAt file (pos + i)) 0

/-- The scanning loop of `build_index_mmap` (`utils.hpp` lines 306-355).
For each of the `n` expected records it unconditionally reads the 8-byte
key and the 4-byte length at the running position — the source has no
bounds check of any kind — records the entry, and advances the position by
`12 + len`.  The boolean accumulates whether any header read touched bytes
at or past the end of the mapping. -/
def build_index_scan (file : List ℕ) : ℕ → ℕ → List IndexRec × Bool
  | 0, _ => ([], false)
  | n + 1, pos =>
    let key := readLE file pos 8
    let len := readLE file (pos + 8) 4
    let rest := build_index_scan file n (pos + 12 + len)
    (⟨key, pos, len⟩ :: rest.1, decide (file.length < pos + 12) || rest.2)

/-- `build_index_mmap(path, idx, n, ...)` viewed as a function of the mapped
bytes: the index entries it stores, paired with the flag that some header
read went past the end of the mapping. -/
def build_index_mmap (file : List ℕ) (n : ℕ) : List IndexRec × Bool :=
  build_index_scan file n 0

/-- Outcome of the verification scan of `check_if_sorted_mmap`
(`utils.hpp` lines 436-484). -/
inductive CheckResult where
  | eofAt (i : ℕ)
  | outOfOrderAt (i : ℕ)
  | ok
  deriving DecidableEq, Repr

/-- The record loop of `check_if_sorted_mmap`: arguments are the records
still to check, the byte position, `prev_key`, and the index `i` of the
current record.  The source returns early (without unlinking) on
`pos + 12 > sz` and on `i > 0 && key < prev_key`, otherwise advances by
`12 + len`. -/
def check_scan (file : List ℕ) : ℕ → ℕ → ℕ → ℕ → CheckResult
  | 0, _, _, _ => .ok
  | n + 1, pos, prev, i =>
    if file.length < pos + 12 then .eofAt i
    else if 0 < i ∧ readLE file pos 8 < prev then .outOfOrderAt i
    else check_scan file n (pos + 12 + readLE file (pos + 8) 4) (readLE file pos 8) (i + 1)

/-- `check_if_sorted_mmap(path, total_n)`: first component is the returned
boolean, second is whether `unlink(path)` was invoked.  `openOk` stands for
the success of the `open`/`fstat`/`mmap` preamble, each of whose failure
paths returns `false` before reaching the loop. -/
def check_if_sorted_mmap (openOk : Bool) (file : List ℕ) (total_n : ℕ) : Bool × Bool :=
  if openOk = false then (false, false)
  else
    match check_scan file total_n 0 0 0 with
    | .ok => (true, true)
    | _ => (false, false)

/-- Header positions and keys of the first `n` records obtained by the
greedy left-to-right parse of the file (the byte layout every scanner of
the source walks): each record sits `12 + len` bytes after its
predecessor. -/
def record_headers (file : List ℕ) : ℕ → ℕ → List (ℕ × ℕ)
  | 0, _ => []
  | n + 1, pos =>
    (pos, readLE file pos 8) :: record_headers file n (pos + 12 + readLE file (pos + 8) 4)

/-- Specification predicate: the file parses as `n` records (every header
lies within the file) whose keys are non-decreasing. -/
def parses_sorted (file : List ℕ) (n : ℕ) : Prop :=
  (∀ h ∈ record_headers file n 0, h.1 + 12 ≤ file.length) ∧
  List.Chain' (· ≤ ·) ((record_headers file n 0).map Prod.snd)

instance (file : List ℕ) (n : ℕ) : Decidable (parses_sorted file n) := by
  unfold parses_sorted; infer_instance

/-- The feedback handler of `Emitter::svc` in `fastflow.cpp` (lines 88-108),
restricted to child-completion messages for internal merge nodes (the
initial leaf burst and the root-completed message take other branches and
touch no join counter).  Nodes are identified by naturals; `remain` is the
current value of each node's atomic `int` counter.  For each received
parent the emitter decrements the counter and forwards the node to the
workers exactly when the decremented value is 0.  The returned list is the
sequence of nodes sent to the workers, in order. -/
def farm_emitter (remain : ℕ → ℤ) : List ℕ → List ℕ
  | [] => []
  | e :: es =>
    if remain e - 1 = 0 then
      e :: farm_emitter (fun x => if x = e then remain e - 1 else remain x) es
    else
      farm_emitter (fun x => if x = e then remain e - 1 else remain x) es

/-- `count_for_rank(rank, total_records, world_size)` from `mpi_omp_mmap.cpp`
lines 54-58, with the machine arithmetic made explicit: the two products
are `uint64_t` multiplications (wrap mod `2^64`), the divisions are exact
on the wrapped values, the subtraction is `uint64_t` (wraps mod `2^64`),
and the result is cast with `static_cast<int>`. -/
def count_for_rank (rank : ℕ) (total_records : ℕ) (world_size : ℕ) : ℤ :=
  let e := total_records * (rank + 1) % 2 ^ 64 / world_size
  let s := total_records * rank % 2 ^ 64 / world_size
  toInt32 ((e + 2 ^ 64 - s) % 2 ^ 64)

/-- The same per-rank slice size in exact natural arithmetic:
`⌊N(r+1)/P⌋ − ⌊Nr/P⌋`.  `count_for_rank` agrees with it whenever the
`uint64_t` products and the `int` cast cannot overflow. -/
def sliceCount (rank N P : ℕ) : ℕ :=
  N * (rank + 1) / P - N * rank / P

/-- `partner_subtree_size(partner_rank, round, total_records, world_size)`
from `mpi_omp_mmap.cpp` lines 61-73: `group = 1 << round`,
`base = (partner_rank / group) * group`, and the sum of `count_for_rank`
over `base .. base + group - 1` accumulated in an `int`. -/
def partner_subtree_size (partner_rank round : ℕ) (total_records world_size : ℕ) : ℤ :=
  ∑ k in Finset.range (2 ^ round),
    count_for_rank (partner_rank / 2 ^ round * 2 ^ round + k) total_records world_size

/-- Number of `IndexRec` entries rank `r` holds at the start of round `t`
of `pairwise_merge_tree` (`mpi_omp_mmap.cpp` lines 78-125), assuming every
receive delivers exactly what its sender transmitted.  Round `t` computes
`partner = rank ^ (1 << round)`; if `partner >= world_size` the rank skips
the round; a rank with `rank & ((1 << (round+1)) - 1) == 0` (equivalently
`rank % 2^(t+1) = 0`, which already forces `rank < partner`) receives and
appends its partner's entries; any other paired rank sends its whole
buffer and holds nothing afterwards.  Initially (after the one-shot
scatter) rank `r` holds its deterministic slice of `sliceCount r N P`
entries. -/
def held_after (N P : ℕ) : ℕ → ℕ → ℕ
  | r, 0 => sliceCount r N P
  | r, t + 1 =>
    if P ≤ r ^^^ 2 ^ t then held_after N P r t
    else if r % 2 ^ (t + 1) = 0 then held_after N P r t + held_after N P (r ^^^ 2 ^ t) t
    else 0

/-- `merge_records(base, left, mid, right)` from `utils.hpp` lines 199-205:
`std::inplace_merge(base+left, base+mid+1, base+right+1, a.key < b.key)`.
The element is taken from the second run exactly when its key is strictly
below the first run's front key, i.e. from the first run when
`first.key ≤ second.key`, which is `List.merge` with that boolean test.
The slice `[left, right]` of the array is replaced by the merge of the two
adjacent runs `[left, mid]` and `[mid+1, right]`; everything else stays. -/
def merge_records (l : List IndexRec) (left mid right : ℕ) : List IndexRec :=
  l.take left ++
    List.merge ((l.drop left).take (mid + 1 - left)) ((l.drop (mid + 1)).take (right - mid))
      (fun a b => decide (a.key ≤ b.key)) ++
  l.drop (right + 1)

/-- An on-disk record, mirroring the generator's layout (`utils.hpp` §3.1):
8-byte key, 4-byte declared length, then the payload bytes. -/
structure Record where
  key : ℕ
  len : ℕ
  payload : List ℕ
  deriving DecidableEq, Repr

/-- Little-endian encoding of `value` on `w` bytes. -/
def encodeLE (w value : ℕ) : List ℕ :=
  (List.range w).map fun i => value / 256 ^ i % 256

/-- The bytes of one record: header then payload. -/
def encodeRecord (r : Record) : List ℕ :=
  encodeLE 8 r.key ++ encodeLE 4 r.len ++ r.payload

/-- The bytes of a whole record file: records concatenated with no padding. -/
def encodeFile (rs : List Record) : List ℕ :=
  (rs.map encodeRecord).flatten

/-- Index entries for a record list starting at byte offset `pos`: entry
`i` stores the record's key, the offset of its header, and its declared
length, each following record `12 + len` bytes later — exactly what the
single forward scan of `build_index_mmap` materializes on a well-formed
file. -/
def index_entries : List Record → ℕ → List IndexRec
  | [], _ => []
  | r :: rest, pos => ⟨r.key, pos, r.len⟩ :: index_entries rest (pos + 12 + r.len)

/-- The index of a record file (scan starting at offset 0). -/
def build_index (rs : List Record) : List IndexRec :=
  index_entries rs 0

/-- The bytes `rewrite_sorted_mmap` copies for one index entry
(`utils.hpp` lines 411-423): `rec_size = 12 + len` bytes starting at
`in_map + offset`. -/
def rec_block (input : List ℕ) (e : IndexRec) : List ℕ :=
  (input.drop e.offset).take (12 + e.len)

/-- `rewrite_sorted_mmap(in, out, idx, n)` viewed as the bytes written to
the output file: for each entry in index order its `rec_block`, placed at
the running sum of the preceding record sizes — i.e. the concatenation.
The source also truncates the output to `sum(12 + len_i)` first, which is
the length of this list on in-bounds entries. -/
def rewrite_sorted_mmap (input : List ℕ) (idx : List IndexRec) : List ℕ :=
  (idx.map (rec_block input)).flatten

/-- The record an in-bounds index entry denotes inside a file: the stored
key and length, plus the payload bytes after the 12-byte header. -/
def decode_entry (input : List ℕ) (e : IndexRec) : Record :=
  ⟨e.key, e.len, (input.drop (e.offset + 12)).take e.len⟩

/-! ## Theorems -/

/-- A value below `2^31` is unchanged by the `int` cast. -/
theorem toInt32_of_lt {n : ℕ} (h : n < 2 ^ 31) : toInt32 n = n := by
  have h32 : n < 2 ^ 32 := lt_trans h (by norm_num)
  unfold toInt32
  rw [Nat.mod_eq_of_lt h32, if_pos h]

/-- C1, counterexample: `notify` is a plain assignment, so a call whose
argument is below the current counter lowers the counter instead of
keeping the maximum — with `filled = 5`, `notify(3)` leaves 3, not
`max 5 3 = 5`. -/
theorem claim_C1_counterexample :
    (ProgressGate.notify ⟨5⟩ 3).filled = 3 ∧ (ProgressGate.notify ⟨5⟩ 3).filled ≠ max 5 3 := by
  exact ⟨rfl, by decide⟩

/-- C1, amended: `notify(m)` sets `filled` to exactly `m` (not to
`max(filled, m)`), hence observed `filled` values are non-decreasing only
because every notifier passes non-decreasing arguments; the index
builder's actual argument sequence (multiples of `notify_every`, then the
final `n`) is indeed non-decreasing, so the counter never decreases in the
program as written. -/
theorem claim_C1_amended (g : ProgressGate) (m n notify_every : ℕ) (hk : 0 < notify_every) :
    (ProgressGate.notify g m).filled = m ∧
    List.Chain' (· ≤ ·) (gate_notify_args n notify_every) := by
  constructor
  · rfl
  · have hpair : List.Pairwise (· ≤ ·)
        (((List.range n).filter fun i => (i + 1) % notify_every == 0).map (fun i => i + 1)) := by
      exact List.Pairwise.map (fun i => i + 1)
        (fun a b (hab : a < b) => Nat.succ_le_succ (le_of_lt hab))
        ((List.pairwise_lt_range n).sublist (List.filter_sublist _))
    rw [List.chain'_iff_pairwise]
    unfold gate_notify_args
    refine List.pairwise_append.mpr ⟨hpair, List.pairwise_singleton _ _, ?_⟩
    intro x hx y hy
    rcases List.mem_map.mp hx with ⟨i, hi, rfl⟩
    have : i < n := List.mem_range.mp (List.mem_of_mem_filter hi)
    rcases List.mem_singleton.mp hy with rfl
    omega

/-- C1 witness. -/
theorem claim_C1_witness :
    0 < 2 ∧ ((ProgressGate.notify ⟨0⟩ 7).filled = 7 ∧
      List.Chain' (· ≤ ·) (gate_notify_args 5 2)) :=
  ⟨by decide, claim_C1_amended ⟨0⟩ 7 5 2 (by decide)⟩

/-- C10: `mergesort_task` called with `left ≥ right` returns at once
through the `if (left >= right) return;` guard — it performs no gate wait,
no base sort and no merge, so one-element ranges and the degenerate
`left = right = 0` call of an empty slice are never gated and never
sorted. -/
theorem claim_C10 (left right : ℕ) (cutoff : ℤ) (h : right ≤ left) :
    mergesort_task left right cutoff = SortPlan.done := by
  rw [mergesort_task]
  simp [h]

/-- C10 witness. -/
theorem claim_C10_witness :
    (0 : ℕ) ≤ 0 ∧ mergesort_task 0 0 7 = SortPlan.done :=
  ⟨le_refl 0, claim_C10 0 0 7 (le_refl 0)⟩

/-- C4, counterexample: the source branches on
`static_cast<int>(right - left) > cutoff`, so the leaf branch is taken
exactly when `right − left ≤ cutoff`, i.e. `R − L + 1 ≤ cutoff + 1`.  With
`L = 0`, `R = 1`, `cutoff = 1` the claim's condition `R − L + 1 ≤ cutoff`
is false (2 ≰ 1), yet the call takes the leaf branch (waiting for
`R + 1 = 2` entries and base-sorting `[0, 1]`) instead of splitting. -/
theorem claim_C4_counterexample :
    ¬ (1 - 0 + 1 ≤ 1) ∧ mergesort_task 0 1 1 = SortPlan.leaf 2 0 1 := by
  refine ⟨by decide, ?_⟩
  rw [mergesort_task]
  norm_num [toInt32]

/-- C4, amended: for `left < right` (with the span and the cutoff inside
`int` range, so the cast is exact), `mergesort_task` takes the leaf branch
— waiting on the gate until `filled ≥ right + 1`, then base-sorting
`[left, right]` — precisely when `right − left ≤ cutoff`, i.e. when
`R − L + 1 ≤ cutoff + 1`; otherwise it splits at `mid = ⌊(L+R)/2⌋`,
recurses on `[L, mid]` and `[mid+1, R]`, and merges the two halves. -/
theorem claim_C4_amended (left right : ℕ) (cutoff : ℤ)
    (hlr : left < right) (hspan : right - left < 2 ^ 31) :
    (mergesort_task left right cutoff = SortPlan.leaf (right + 1) left right ↔
      ((right - left : ℕ) : ℤ) ≤ cutoff) ∧
    (cutoff < ((right - left : ℕ) : ℤ) →
      mergesort_task left right cutoff =
        SortPlan.split ((left + right) / 2)
          (mergesort_task left ((left + right) / 2) cutoff)
          (mergesort_task ((left + right) / 2 + 1) right cutoff)
          left ((left + right) / 2) right) := by
  have hne : ¬ left ≥ right := not_le.mpr hlr
  have hcast : toInt32 (right - left) = ((right - left : ℕ) : ℤ) := toInt32_of_lt hspan
  constructor
  · constructor
    · intro hEq
      by_contra hgt
      rw [mergesort_task, if_neg hne, if_pos (by rw [hcast]; omega)] at hEq
      exact SortPlan.noConfusion hEq
    · intro hle
      rw [mergesort_task, if_neg hne, if_neg (by rw [hcast]; omega)]
  · intro hgt
    rw [mergesort_task, if_neg hne, if_pos (by rw [hcast]; omega)]

/-- C4 witness (instantiating the amended claim at `L = 0`, `R = 5`,
`cutoff = 2`: the span 5 exceeds the cutoff, so the call splits at 2). -/
theorem claim_C4_witness :
    (0 : ℕ) < 5 ∧ 5 - 0 < 2 ^ 31 ∧
    ((mergesort_task 0 5 2 = SortPlan.leaf 6 0 5 ↔ ((5 - 0 : ℕ) : ℤ) ≤ 2) ∧
      ((2 : ℤ) < ((5 - 0 : ℕ) : ℤ) →
        mergesort_task 0 5 2 =
          SortPlan.split ((0 + 5) / 2)
            (mergesort_task 0 ((0 + 5) / 2) 2)
            (mergesort_task ((0 + 5) / 2 + 1) 5 2)
            0 ((0 + 5) / 2) 5)) :=
  ⟨by decide, by norm_num, claim_C4_amended 0 5 2 (by decide) (by norm_num)⟩

/-- How often the emitter forwards node `v`, for an arbitrary join-counter
state expressed as `2 - (messages already processed for each node)`: it
forwards `v` exactly once if at most one completion for `v` was processed
before and the remaining events bring `v`'s total to 2 or more (the third
and later decrements drive the `int` counter negative, never back to 0),
and never otherwise. -/
theorem farm_emitter_count (es : List ℕ) : ∀ (c : ℕ → ℕ) (v : ℕ),
    (farm_emitter (fun x => 2 - (c x : ℤ)) es).count v =
      if c v ≤ 1 ∧ 2 ≤ c v + es.count v then 1 else 0 := by
  induction es with
  | nil =>
    intro c v
    simp only [farm_emitter, List.count_nil]
    rw [if_neg (by omega)]
  | cons e es ih =>
    intro c v
    rw [farm_emitter]
    have hstate : (fun x => if x = e then 2 - (c e : ℤ) - 1 else 2 - (c x : ℤ)) =
        (fun x => 2 - ((fun y => if y = e then c y + 1 else c y) x : ℤ)) := by
      funext x
      by_cases hx : x = e <;> simp [hx] <;> push_cast <;> ring
    rw [hstate]
    by_cases hemit : 2 - (c e : ℤ) - 1 = 0
    · have hce : c e = 1 := by omega
      rw [if_pos hemit]
      simp only [List.count_cons, ih, beq_iff_eq]
      by_cases hv : v = e
      · subst hv
        simp only [if_pos rfl, hce]
        split_ifs <;> omega
      · simp only [if_neg hv]
        split_ifs <;> omega
    · have hce : c e ≠ 1 := by omega
      rw [if_neg hemit]
      simp only [List.count_cons, ih, beq_iff_eq]
      by_cases hv : v = e
      · subst hv
        simp only [if_pos rfl]
        split_ifs <;> omega
      · simp only [if_neg hv]
        split_ifs <;> omega

/-- C8: with every internal node's `remain` counter initialized to 2
(`node->remain = 2` in `build_tasks`), a node whose two child-completion
messages appear in the feedback stream is forwarded to the workers exactly
once, and — applying the same count to any prefix of the stream — it is
forwarded precisely upon the second of its two messages and on no other
event: after `k` processed messages it has been scheduled iff its
completion count has already reached 2. -/
theorem claim_C8 (es : List ℕ) (v : ℕ) (k : ℕ) (h2 : es.count v = 2) :
    (farm_emitter (fun _ => (2 : ℤ)) es).count v = 1 ∧
    (v ∈ farm_emitter (fun _ => (2 : ℤ)) (es.take k) ↔ 2 ≤ (es.take k).count v) := by
  have h1 := farm_emitter_count es (fun _ => 0) v
  have hpre := farm_emitter_count (es.take k) (fun _ => 0) v
  simp only [Nat.cast_zero, sub_zero, zero_add, Nat.zero_le, true_and] at h1 hpre
  constructor
  · rw [h1, if_pos (by omega)]
  · rw [← List.count_pos_iff, hpre]
    split_ifs with hc <;> simp [hc]

/-- C8 witness: stream `[4, 7, 4]` carries both completions of node 4; it
is forwarded once, and the prefix of length 2 (only one completion seen)
has not scheduled it. -/
theorem claim_C8_witness :
    ([4, 7, 4] : List ℕ).count 4 = 2 ∧
    ((farm_emitter (fun _ => (2 : ℤ)) [4, 7, 4]).count 4 = 1 ∧
      (4 ∈ farm_emitter (fun _ => (2 : ℤ)) (([4, 7, 4] : List ℕ).take 2) ↔
        2 ≤ (([4, 7, 4] : List ℕ).take 2).count 4)) :=
  ⟨by decide, claim_C8 [4, 7, 4] 4 2 (by decide)⟩

/-- The scan loop of `check_if_sorted_mmap` succeeds iff every remaining
header is in bounds and the keys, prefixed by `prev` when at least one
record was already consumed, are non-decreasing. -/
theorem check_scan_ok_iff (file : List ℕ) : ∀ (n pos prev i : ℕ),
    (check_scan file n pos prev i = CheckResult.ok ↔
      (∀ h ∈ record_headers file n pos, h.1 + 12 ≤ file.length) ∧
      List.Chain' (· ≤ ·)
        (if 0 < i then prev :: (record_headers file n pos).map Prod.snd
         else (record_headers file n pos).map Prod.snd)) := by
  intro n
  induction n with
  | zero =>
    intro pos prev i
    simp only [check_scan, record_headers, List.not_mem_nil, false_implies, implies_true,
      List.map_nil, true_and]
    split <;> simp
  | succ n ih =>
    intro pos prev i
    rw [check_scan, record_headers]
    by_cases heof : file.length < pos + 12
    · rw [if_pos heof]
      constructor
      · intro hEq; exact absurd hEq (by simp)
      · rintro ⟨hb, -⟩
        have := hb (pos, readLE file pos 8) (List.mem_cons_self _ _)
        omega
    · rw [if_neg heof]
      by_cases hbad : 0 < i ∧ readLE file pos 8 < prev
      · rw [if_pos hbad]
        constructor
        · intro hEq; exact absurd hEq (by simp)
        · rintro ⟨-, hchain⟩
          rw [if_pos hbad.1, List.map_cons, List.chain'_cons] at hchain
          omega
      · rw [if_neg hbad]
        rw [ih (pos + 12 + readLE file (pos + 8) 4) (readLE file pos 8) (i + 1)]
        rw [if_pos (Nat.succ_pos i)]
        constructor
        · rintro ⟨hb, hchain⟩
          refine ⟨?_, ?_⟩
          · intro h hm
            rcases List.mem_cons.mp hm with rfl | hm2
            · omega
            · exact hb h hm2
          · rcases Nat.eq_zero_or_pos i with hi | hi
            · rw [if_neg (by omega), List.map_cons]
              exact hchain
            · rw [if_pos hi, List.map_cons, List.chain'_cons]
              exact ⟨by omega, hchain⟩
        · rintro ⟨hb, hchain⟩
          refine ⟨fun h hm => hb h (List.mem_cons_of_mem _ hm), ?_⟩
          rcases Nat.eq_zero_or_pos i with hi | hi
          · rw [if_neg (by omega), List.map_cons] at hchain
            exact hchain
          · rw [if_pos hi, List.map_cons, List.chain'_cons] at hchain
            exact hchain.2

/-- C9: `check_if_sorted_mmap` unlinks the checked file exactly when it
returns `true`, and it returns `true` exactly when the mapping succeeded
and the file parses as `total_n` records with non-decreasing keys; on
every failure path (open/stat/map error, unexpected end-of-file,
out-of-order key pair) the file is left in place. -/
theorem claim_C9 (openOk : Bool) (file : List ℕ) (n : ℕ) :
    (check_if_sorted_mmap openOk file n).2 = (check_if_sorted_mmap openOk file n).1 ∧
    ((check_if_sorted_mmap openOk file n).1 = true ↔ openOk = true ∧ parses_sorted file n) := by
  have hiff := check_scan_ok_iff file n 0 0 0
  rw [if_neg (lt_irrefl 0)] at hiff
  unfold check_if_sorted_mmap
  cases openOk
  · simp
  · rw [if_neg (by simp)]
    rcases hres : check_scan file n 0 0 0 with i | i | -
    · refine ⟨rfl, ?_⟩
      simp only [true_and]
      constructor
      · intro h; exact absurd h (by simp)
      · intro hP
        rw [hiff.mpr hP] at hres
        exact CheckResult.noConfusion hres
    · refine ⟨rfl, ?_⟩
      simp only [true_and]
      constructor
      · intro h; exact absurd h (by simp)
      · intro hP
        rw [hiff.mpr hP] at hres
        exact CheckResult.noConfusion hres
    · refine ⟨rfl, ?_⟩
      constructor
      · intro _; exact ⟨rfl, hiff.mp hres⟩
      · intro _; rfl

/-- The index builder loop always completes with exactly `n` entries: the
function has no failure exit of any kind. -/
theorem build_index_scan_length (file : List ℕ) :
    ∀ (n pos : ℕ), (build_index_scan file n pos).1.length = n := by
  intro n
  induction n with
  | zero => intro pos; rfl
  | succ n ih => intro pos; simp [build_index_scan, ih]

/-- C3: `build_index_mmap` contains no bounds check at all.  On an empty
(0-byte) file with expected count `n = 1` it silently reads the 12 header
bytes past the end of the mapping (the overrun flag is set), produces an
index entry, and returns normally — there is no fatal abort naming the
offending record, on this or any other input: the scan always returns
exactly `n` entries. -/
theorem claim_C3_eval :
    build_index_mmap [] 1 = ([⟨0, 0, 0⟩], true) ∧
    ∀ (file : List ℕ) (n : ℕ), (build_index_mmap file n).1.length = n := by
  constructor
  · rfl
  · intro file n
    exact build_index_scan_length file n 0

/-- Division step bound: adding `N` to the dividend raises a floor quotient
by at most `N`. -/
theorem slice_div_le (a N P : ℕ) (hP : 0 < P) : (a + N) / P ≤ a / P + N := by
  have h1 : P * (a / P) + a % P = a := Nat.div_add_mod a P
  have h2 := Nat.mod_lt a hP
  have h3 : N * 1 ≤ N * P := Nat.mul_le_mul_left N hP
  have h4 : N * 1 = N := by ring
  have hexp : (a / P + N + 1) * P = P * (a / P) + N * P + P := by ring
  have hlt : a + N < (a / P + N + 1) * P := by omega
  exact Nat.lt_succ_iff.mp ((Nat.div_lt_iff_lt_mul hP).mpr hlt)

/-- In the no-overflow regime (`N < 2^31`, rank below the `uint64` range of
interest) `count_for_rank` computes the exact slice size: the two products
stay below `2^64`, the difference is non-negative and below `2^31`, and
the `int` cast is the identity. -/
theorem count_for_rank_eq (rank N P : ℕ) (hP : 0 < P) (hN : N < 2 ^ 31)
    (hrank : rank + 1 ≤ 2 ^ 32) :
    count_for_rank rank N P = (sliceCount rank N P : ℤ) := by
  unfold count_for_rank sliceCount
  have hm1 : N * (rank + 1) < 2 ^ 64 := by
    calc N * (rank + 1) ≤ (2 ^ 31 - 1) * 2 ^ 32 := Nat.mul_le_mul (by omega) hrank
    _ < 2 ^ 64 := by norm_num
  have hm0 : N * rank < 2 ^ 64 :=
    lt_of_le_of_lt (Nat.mul_le_mul_left N (by omega)) hm1
  rw [Nat.mod_eq_of_lt hm1, Nat.mod_eq_of_lt hm0]
  have hmono : N * rank / P ≤ N * (rank + 1) / P :=
    Nat.div_le_div_right (Nat.mul_le_mul_left N (by omega))
  have hle : N * (rank + 1) / P - N * rank / P ≤ N := by
    have hstep : N * (rank + 1) / P ≤ N * rank / P + N := by
      have h := slice_div_le (N * rank) N P hP
      rwa [show N * rank + N = N * (rank + 1) by ring] at h
    omega
  have hmod : (N * (rank + 1) / P + 2 ^ 64 - N * rank / P) % 2 ^ 64
      = N * (rank + 1) / P - N * rank / P := by
    have hsplit : N * (rank + 1) / P + 2 ^ 64 - N * rank / P
        = 2 ^ 64 + (N * (rank + 1) / P - N * rank / P) := by omega
    rw [hsplit, Nat.add_mod_left]
    exact Nat.mod_eq_of_lt (by omega)
  show toInt32 ((N * (rank + 1) / P + 2 ^ 64 - N * rank / P) % 2 ^ 64)
      = ((N * (rank + 1) / P - N * rank / P : ℕ) : ℤ)
  rw [hmod, toInt32_of_lt (by omega)]

/-- The slice sizes telescope: the first `m` ranks together cover the first
`⌊N·m/P⌋` records. -/
theorem slice_sum (N P : ℕ) : ∀ m : ℕ,
    ∑ r in Finset.range m, sliceCount r N P = N * m / P := by
  intro m
  induction m with
  | zero => simp
  | succ m ih =>
    rw [Finset.sum_range_succ, ih]
    unfold sliceCount
    have hmono : N * m / P ≤ N * (m + 1) / P :=
      Nat.div_le_div_right (Nat.mul_le_mul_left N (by omega))
    omega

/-- The half-open intervals `[⌊N·r/P⌋, ⌊N·(r+1)/P⌋)` tile `[0, N)`: each
record index lands in the slice of exactly one rank. -/
theorem slice_partition (N P : ℕ) (hP : 0 < P) (i : ℕ) (hi : i < N) :
    ∃! r, r < P ∧ N * r / P ≤ i ∧ i < N * (r + 1) / P := by
  have hNP : N * P / P = N := Nat.mul_div_cancel _ hP
  have hex : ∃ r, i < N * r / P := ⟨P, by omega⟩
  have hr1 : i < N * Nat.find hex / P := Nat.find_spec hex
  have hr1pos : 0 < Nat.find hex := by
    rcases Nat.eq_zero_or_pos (Nat.find hex) with h0 | h
    · rw [h0] at hr1; simp at hr1
    · exact h
  have hmin : ¬ i < N * (Nat.find hex - 1) / P := Nat.find_min hex (by omega)
  refine ⟨Nat.find hex - 1, ⟨?_, by omega, ?_⟩, ?_⟩
  · by_contra hge
    push_neg at hge
    have h1 : N * P / P ≤ N * (Nat.find hex - 1) / P :=
      Nat.div_le_div_right (Nat.mul_le_mul_left N hge)
    omega
  · have hstep : Nat.find hex - 1 + 1 = Nat.find hex := by omega
    rw [hstep]
    exact hr1
  · rintro y ⟨hyP, hy1, hy2⟩
    by_contra hne
    rcases Nat.lt_or_ge y (Nat.find hex - 1) with hlt | hge
    · have hmono : N * (y + 1) / P ≤ N * (Nat.find hex - 1) / P :=
        Nat.div_le_div_right (Nat.mul_le_mul_left N (by omega))
      omega
    · have hmono : N * Nat.find hex / P ≤ N * y / P :=
        Nat.div_le_div_right (Nat.mul_le_mul_left N (by omega))
      omega

/-- C5, counterexample: the claim's "no overflow, for every representable
N" fails.  At `N = 2^63`, `P = 2` the `uint64_t` product `N·(r+1)` wraps
and the `int` cast truncates: both per-rank counts computed by
`count_for_rank` are 0, so the schedule sums to 0 instead of `N`. -/
theorem claim_C5_counterexample :
    ∑ r in Finset.range 2, count_for_rank r (2 ^ 63) 2 = 0 ∧
    ((2 ^ 63 : ℤ) ≠ 0) := by
  constructor
  · decide
  · decide

/-- C5, amended: in the overflow-free regime `N < 2^31`, `0 < P < 2^31`
(which covers every `int` world size once `N` fits an `int`), the schedule
computed by `count_for_rank` is exact: every per-rank count is non-negative
and equals `⌊N(r+1)/P⌋ − ⌊Nr/P⌋`, the counts sum to exactly `N`, and the
half-open index intervals `[⌊Nr/P⌋, ⌊N(r+1)/P⌋)` assign each record index
to exactly one rank.  (For larger `N` the `uint64_t` product and the `int`
cast can wrap, see the counterexample.) -/
theorem claim_C5_amended (N P : ℕ) (hP : 0 < P) (hN : N < 2 ^ 31) (hPb : P < 2 ^ 31) :
    (∀ r, r < P → 0 ≤ count_for_rank r N P ∧ count_for_rank r N P = (sliceCount r N P : ℤ)) ∧
    ∑ r in Finset.range P, count_for_rank r N P = (N : ℤ) ∧
    (∀ i, i < N → ∃! r, r < P ∧ N * r / P ≤ i ∧ i < N * (r + 1) / P) := by
  have hbr : ∀ r, r < P → count_for_rank r N P = (sliceCount r N P : ℤ) := fun r hr =>
    count_for_rank_eq r N P hP hN (by omega)
  refine ⟨fun r hr => ⟨?_, hbr r hr⟩, ?_, fun i hi => slice_partition N P hP i hi⟩
  · rw [hbr r hr]
    exact Int.natCast_nonneg _
  · rw [Finset.sum_congr rfl fun r hr => hbr r (Finset.mem_range.mp hr)]
    rw [← Nat.cast_sum, slice_sum N P P, Nat.mul_div_cancel _ hP]

/-- C5 witness (at `N = 10`, `P = 4`). -/
theorem claim_C5_witness :
    0 < 4 ∧ 10 < 2 ^ 31 ∧ 4 < 2 ^ 31 ∧
    ((∀ r, r < 4 → 0 ≤ count_for_rank r 10 4 ∧ count_for_rank r 10 4 = (sliceCount r 10 4 : ℤ)) ∧
      ∑ r in Finset.range 4, count_for_rank r 10 4 = (10 : ℤ) ∧
      (∀ i, i < 10 → ∃! r, r < 4 ∧ 10 * r / 4 ≤ i ∧ i < 10 * (r + 1) / 4)) :=
  ⟨by decide, by norm_num, by norm_num, claim_C5_amended 10 4 (by decide) (by norm_num) (by norm_num)⟩

/-- XOR with `2^t` is addition of `2^t` on numbers whose low `t + 1` bits
vanish (bit `t` is clear, so no borrow or carry is possible): this is the
partner computation `rank ^ (1 << round)` for a merge-tree receiver or for
the aligned base of a sender. -/
theorem xor_two_pow_of_mod {q t : ℕ} (h : q % 2 ^ (t + 1) = 0) :
    q ^^^ 2 ^ t = q + 2 ^ t := by
  obtain ⟨m, rfl⟩ : ∃ m, q = 2 ^ (t + 1) * m :=
    ⟨q / 2 ^ (t + 1), (Nat.div_mul_cancel (Nat.dvd_of_mod_eq_zero h)).symm.trans
      (Nat.mul_comm _ _)⟩
  apply Nat.eq_of_testBit_eq
  intro i
  rcases Nat.lt_trichotomy i t with hi | heq | hi
  · rw [Nat.testBit_xor, Nat.testBit_two_pow_of_ne (Nat.ne_of_gt hi)]
    rw [Nat.add_comm (2 ^ (t + 1) * m) (2 ^ t), Nat.testBit_two_pow_add_gt hi]
    simp
  · subst heq
    rw [Nat.testBit_xor, Nat.testBit_two_pow_self]
    rw [Nat.add_comm (2 ^ (i + 1) * m) (2 ^ i), Nat.testBit_two_pow_add_eq]
    simp
  · obtain ⟨j, rfl⟩ : ∃ j, i = t + 1 + j := ⟨i - (t + 1), by omega⟩
    rw [Nat.testBit_xor, Nat.testBit_two_pow_of_ne (by omega)]
    have h1 : (2 ^ (t + 1) * m + 2 ^ t) / 2 ^ (t + 1 + j) = m / 2 ^ j := by
      rw [pow_add 2 (t + 1) j, ← Nat.div_div_eq_div_mul, Nat.mul_comm (2 ^ (t + 1)) m,
        Nat.add_comm (m * 2 ^ (t + 1)) (2 ^ t),
        Nat.add_mul_div_right _ _ (Nat.two_pow_pos (t + 1)),
        Nat.div_eq_of_lt (Nat.pow_lt_pow_right (by norm_num) (Nat.lt_succ_self t))]
      simp
    have h2 : (2 ^ (t + 1) * m) / 2 ^ (t + 1 + j) = m / 2 ^ j := by
      rw [pow_add 2 (t + 1) j, ← Nat.div_div_eq_div_mul, Nat.mul_comm (2 ^ (t + 1)) m,
        Nat.mul_div_cancel _ (Nat.two_pow_pos (t + 1))]
    rw [Nat.testBit_to_div_mod, Nat.testBit_to_div_mod, h1, h2]
    simp

/-- A rank `q` aligned to its `2^t` block whose whole block lies below `P`
holds, at the start of round `t`, exactly the slices of the `2^t` ranks of
its block: in this regime every earlier round paired it with an in-range
partner and it received, so the held counts accumulate block by block. -/
theorem held_after_eq_sum (N P : ℕ) : ∀ (t q : ℕ), q % 2 ^ t = 0 → q + 2 ^ t ≤ P →
    held_after N P q t = ∑ k in Finset.Ico q (q + 2 ^ t), sliceCount k N P := by
  intro t
  induction t with
  | zero =>
    intro q _ _
    rw [pow_zero, Nat.Ico_succ_singleton, Finset.sum_singleton]
    rfl
  | succ t ih =>
    intro q hmod hle
    have hpos : 0 < (2 : ℕ) ^ t := Nat.two_pow_pos t
    have hpow : (2 : ℕ) ^ (t + 1) = 2 ^ t + 2 ^ t := by rw [pow_succ]; ring
    have hmod_t : q % 2 ^ t = 0 := by
      have h1 : (2 : ℕ) ^ (t + 1) ∣ q := Nat.dvd_of_mod_eq_zero hmod
      exact Nat.mod_eq_zero_of_dvd (dvd_trans (pow_dvd_pow 2 (Nat.le_succ t)) h1)
    have hxor : q ^^^ 2 ^ t = q + 2 ^ t := xor_two_pow_of_mod hmod
    rw [held_after, hxor, if_neg (by omega), if_pos hmod]
    rw [ih q hmod_t (by omega),
      ih (q + 2 ^ t) (by rw [Nat.add_mod_right, hmod_t]) (by omega)]
    rw [show q + 2 ^ t + 2 ^ t = q + 2 ^ (t + 1) by omega]
    exact Finset.sum_Ico_consecutive _ (by omega) (by omega)

/-- When the sender's `2^round`-aligned block lies entirely below the world
size (always the case for a power-of-two `P`), and the arithmetic is in
the overflow-free regime, the receiver's precomputed
`partner_subtree_size` equals the number of entries the sender actually
holds and transmits in that round. -/
theorem partner_subtree_size_eq_held (N P t r : ℕ) (hP : 0 < P) (hN : N < 2 ^ 31)
    (hPb : P < 2 ^ 31) (hrecv : r % 2 ^ (t + 1) = 0) (hpartner : (r ^^^ 2 ^ t) < P)
    (hfit : (r ^^^ 2 ^ t) + 2 ^ t ≤ P) :
    partner_subtree_size (r ^^^ 2 ^ t) t N P = (held_after N P (r ^^^ 2 ^ t) t : ℤ) := by
  have hpos : 0 < (2 : ℕ) ^ t := Nat.two_pow_pos t
  have hxor : r ^^^ 2 ^ t = r + 2 ^ t := xor_two_pow_of_mod hrecv
  have hrmod : r % 2 ^ t = 0 :=
    Nat.mod_eq_zero_of_dvd
      (dvd_trans (pow_dvd_pow 2 (Nat.le_succ t)) (Nat.dvd_of_mod_eq_zero hrecv))
  have hpmod : (r + 2 ^ t) % 2 ^ t = 0 := by rw [Nat.add_mod_right, hrmod]
  have hbase : (r + 2 ^ t) / 2 ^ t * 2 ^ t = r + 2 ^ t :=
    Nat.div_mul_cancel (Nat.dvd_of_mod_eq_zero hpmod)
  rw [hxor] at hfit
  simp only [hxor]
  unfold partner_subtree_size
  rw [held_after_eq_sum N P t (r + 2 ^ t) hpmod hfit]
  rw [Nat.cast_sum, Finset.sum_Ico_eq_sum_range]
  simp only [Nat.add_sub_cancel_left]
  refine Finset.sum_congr rfl fun k hk => ?_
  rw [hbase]
  exact count_for_rank_eq (r + 2 ^ t + k) N P hP hN
    (by have hk2 := Finset.mem_range.mp hk; omega)

/-- C2: the precomputed receive size diverges from the sender's real
holдings when `P` is not a power of two.  At `N = 3`, `P = 3`, round 1, the
receiver is rank 0 and its partner (the sender) is rank `0 ^ 2 = 2`: the
code's `partner_subtree_size` sums `count_for_rank` over ranks 2 and 3 of
the aligned block — but rank 3 does not exist and its "count" is 1, so the
receiver expects 2 entries while the sender (which skipped round 0 because
its partner 3 was out of range) holds and transmits only its own slice of
1 entry. -/
theorem claim_C2_eval :
    partner_subtree_size 2 1 3 3 = 2 ∧ held_after 3 3 2 1 = 1 ∧
    (2 : ℕ) ^ 1 < 3 ∧ (0 : ℕ) % 2 ^ (1 + 1) = 0 ∧ ((0 : ℕ) ^^^ 2 ^ 1) = 2 ∧
    partner_subtree_size 2 1 3 3 ≠ (held_after 3 3 2 1 : ℤ) := by
  refine ⟨by decide, by decide, by decide, by decide, by decide, by decide⟩

/-- C6: given `left ≤ mid < right` inside the array and the two adjacent
runs `[left, mid]`, `[mid+1, right]` each sorted ascending by key,
`merge_records` leaves `[left, right]` sorted ascending by key and a
permutation of its previous contents, and every element outside
`[left, right]` (and the array length) unchanged. -/
theorem claim_C6 (l : List IndexRec) (left mid right : ℕ)
    (h1 : left ≤ mid) (h2 : mid < right) (h3 : right < l.length)
    (hs1 : ((l.drop left).take (mid + 1 - left)).Pairwise keyLE)
    (hs2 : ((l.drop (mid + 1)).take (right - mid)).Pairwise keyLE) :
    (((merge_records l left mid right).drop left).take (right + 1 - left)).Pairwise keyLE ∧
    List.Perm (((merge_records l left mid right).drop left).take (right + 1 - left))
      ((l.drop left).take (right + 1 - left)) ∧
    (merge_records l left mid right).take left = l.take left ∧
    (merge_records l left mid right).drop (right + 1) = l.drop (right + 1) ∧
    (merge_records l left mid right).length = l.length := by
  unfold merge_records
  set m1 := (l.drop left).take (mid + 1 - left) with hm1def
  set m2 := (l.drop (mid + 1)).take (right - mid) with hm2def
  set M := m1.merge m2 (fun a b => decide (a.key ≤ b.key)) with hMdef
  have hA : (l.take left).length = left := by rw [List.length_take]; omega
  have hm1l : m1.length = mid + 1 - left := by
    rw [hm1def, List.length_take, List.length_drop]; omega
  have hm2l : m2.length = right - mid := by
    rw [hm2def, List.length_take, List.length_drop]; omega
  have hMl : M.length = right + 1 - left := by
    rw [hMdef, List.length_merge]; omega
  have hmid : ((l.take left ++ M ++ l.drop (right + 1)).drop left).take (right + 1 - left)
      = M := by
    rw [List.append_assoc, List.drop_left' hA]
    exact List.take_left' hMl
  have hsplit : (l.drop left).take (right + 1 - left) = m1 ++ m2 := by
    rw [show right + 1 - left = (mid + 1 - left) + (right - mid) by omega,
      List.take_add, List.drop_drop, show left + (mid + 1 - left) = mid + 1 by omega]
  refine ⟨?_, ?_, ?_, ?_, ?_⟩
  · rw [hmid]
    have htrans : ∀ (a b c : IndexRec), decide (a.key ≤ b.key) = true →
        decide (b.key ≤ c.key) = true → decide (a.key ≤ c.key) = true := by
      intro a b c hab hbc
      simp only [decide_eq_true_eq] at hab hbc ⊢
      omega
    have htotal : ∀ (a b : IndexRec),
        (decide (a.key ≤ b.key) || decide (b.key ≤ a.key)) = true := by
      intro a b
      simp only [Bool.or_eq_true, decide_eq_true_eq]
      omega
    have hs1b : m1.Pairwise (fun a b => decide (a.key ≤ b.key) = true) :=
      hs1.imp fun h => decide_eq_true h
    have hs2b : m2.Pairwise (fun a b => decide (a.key ≤ b.key) = true) :=
      hs2.imp fun h => decide_eq_true h
    exact (List.sorted_merge htrans htotal m1 m2 hs1b hs2b).imp fun h => of_decide_eq_true h
  · rw [hmid, hsplit]
    exact List.merge_perm_append _
  · rw [List.append_assoc]
    exact List.take_left' hA
  · apply List.drop_left'
    rw [List.length_append, hA, hMl]
    omega
  · rw [List.length_append, List.length_append, hA, hMl, List.length_drop]
    omega

/-- C6 witness: merging the runs `[⟨3⟩]` and `[⟨1⟩]` inside a 3-element
array sorts the slice `[0, 1]`, permutes it, and leaves index 2 alone. -/
theorem claim_C6_witness :
    ((0 : ℕ) ≤ 0 ∧ 0 < 1 ∧ 1 < ([⟨3, 0, 0⟩, ⟨1, 1, 1⟩, ⟨7, 2, 2⟩] : List IndexRec).length) ∧
    ((((merge_records [⟨3, 0, 0⟩, ⟨1, 1, 1⟩, ⟨7, 2, 2⟩] 0 0 1).drop 0).take
        (1 + 1 - 0)).Pairwise keyLE ∧
      List.Perm (((merge_records [⟨3, 0, 0⟩, ⟨1, 1, 1⟩, ⟨7, 2, 2⟩] 0 0 1).drop 0).take
        (1 + 1 - 0))
        ((([⟨3, 0, 0⟩, ⟨1, 1, 1⟩, ⟨7, 2, 2⟩] : List IndexRec).drop 0).take (1 + 1 - 0)) ∧
      (merge_records [⟨3, 0, 0⟩, ⟨1, 1, 1⟩, ⟨7, 2, 2⟩] 0 0 1).take 0
        = ([⟨3, 0, 0⟩, ⟨1, 1, 1⟩, ⟨7, 2, 2⟩] : List IndexRec).take 0 ∧
      (merge_records [⟨3, 0, 0⟩, ⟨1, 1, 1⟩, ⟨7, 2, 2⟩] 0 0 1).drop (1 + 1)
        = ([⟨3, 0, 0⟩, ⟨1, 1, 1⟩, ⟨7, 2, 2⟩] : List IndexRec).drop (1 + 1) ∧
      (merge_records [⟨3, 0, 0⟩, ⟨1, 1, 1⟩, ⟨7, 2, 2⟩] 0 0 1).length
        = ([⟨3, 0, 0⟩, ⟨1, 1, 1⟩, ⟨7, 2, 2⟩] : List IndexRec).length) :=
  ⟨⟨by decide, by decide, by decide⟩,
    claim_C6 [⟨3, 0, 0⟩, ⟨1, 1, 1⟩, ⟨7, 2, 2⟩] 0 0 1
      (by decide) (by decide) (by decide) (by decide) (by decide)⟩

/-- A well-formed record encodes to exactly `12 + len` bytes. -/
theorem encodeRecord_length (r : Record) (h : r.payload.length = r.len) :
    (encodeRecord r).length = 12 + r.len := by
  unfold encodeRecord encodeLE
  simp only [List.length_append, List.length_map, List.length_range, h]

/-- Pointwise-related lists relate every left member to some right member. -/
theorem forall₂_exists_of_mem {α β : Type} {R : α → β → Prop} :
    ∀ {as : List α} {bs : List β}, List.Forall₂ R as bs → ∀ a ∈ as, ∃ b ∈ bs, R a b := by
  intro as
  induction as with
  | nil =>
    intro bs _ a ha
    exact absurd ha (List.not_mem_nil a)
  | cons x as ih =>
    intro bs h a ha
    cases h with
    | cons hR hrest =>
      rcases List.mem_cons.mp ha with rfl | ha2
      · exact ⟨_, List.mem_cons_self _ _, hR⟩
      · rcases ih hrest a ha2 with ⟨b, hb, hRb⟩
        exact ⟨b, List.mem_cons_of_mem _ hb, hRb⟩

/-- A `Forall₂` of graph form is a `map` equation. -/
theorem forall₂_map_eq {α β : Type} {f : α → β} :
    ∀ {as : List α} {bs : List β}, List.Forall₂ (fun a b => f a = b) as bs → as.map f = bs := by
  intro as
  induction as with
  | nil =>
    intro bs h
    cases h
    rfl
  | cons x as ih =>
    intro bs h
    cases h with
    | cons h1 h2 =>
      rw [List.map_cons, h1, ih h2]

/-- Walking the index of a well-formed encoded file (placed after an
arbitrary prefix) recovers, entry by entry, the original records: decoding
an entry gives back its record, and the `12 + len` bytes at its offset are
exactly that record's encoding. -/
theorem index_entries_spec (rs : List Record) : ∀ (pre : List ℕ),
    (∀ r ∈ rs, r.payload.length = r.len) →
    List.Forall₂
      (fun (e : IndexRec) (r : Record) =>
        decode_entry (pre ++ encodeFile rs) e = r ∧
        rec_block (pre ++ encodeFile rs) e = encodeRecord r)
      (index_entries rs pre.length) rs := by
  induction rs with
  | nil =>
    intro pre _
    rw [index_entries]
    exact List.Forall₂.nil
  | cons r rest ih =>
    intro pre hwf
    have hwfr : r.payload.length = r.len := hwf r (List.mem_cons_self r rest)
    have hfile2 : pre ++ encodeFile (r :: rest)
        = pre ++ (encodeRecord r ++ encodeFile rest) := by
      unfold encodeFile
      rw [List.map_cons, List.flatten_cons]
    rw [index_entries]
    refine List.forall₂_cons.mpr ⟨⟨?_, ?_⟩, ?_⟩
    · -- decoding the head entry gives back the head record
      unfold decode_entry
      obtain ⟨k, ln, pl⟩ := r
      simp only at hwfr ⊢
      have hpay : ((pre ++ encodeFile (⟨k, ln, pl⟩ :: rest)).drop (pre.length + 12)).take ln
          = pl := by
        rw [hfile2, ← List.drop_drop, List.drop_left]
        have hassoc : encodeRecord ⟨k, ln, pl⟩ ++ encodeFile rest
            = (encodeLE 8 k ++ encodeLE 4 ln) ++ (pl ++ encodeFile rest) := by
          unfold encodeRecord
          rw [List.append_assoc, List.append_assoc]
        have hH : (encodeLE 8 k ++ encodeLE 4 ln).length = 12 := by
          unfold encodeLE
          simp
        rw [hassoc, List.drop_left' hH]
        exact List.take_left' hwfr
      rw [hpay]
    · -- the bytes at the head entry's offset are the head record's encoding
      unfold rec_block
      rw [hfile2, List.drop_left]
      exact List.take_left' (encodeRecord_length r hwfr)
    · -- tail: shift the prefix past the head record
      have ihm := ih (pre ++ encodeRecord r) fun x hx => hwf x (List.mem_cons_of_mem r hx)
      have hlen : (pre ++ encodeRecord r).length = pre.length + 12 + r.len := by
        rw [List.length_append, encodeRecord_length r hwfr]
        omega
      have hfile3 : (pre ++ encodeRecord r) ++ encodeFile rest
          = pre ++ encodeFile (r :: rest) := by
        rw [hfile2, List.append_assoc]
      rw [hlen, hfile3] at ihm
      exact ihm

/-- Inside a concatenation, the chunk of index `i` sits at the running sum
of the lengths of the chunks before it. -/
theorem flatten_drop_take : ∀ (L : List (List ℕ)) (i : ℕ) (h : i < L.length),
    ((L.flatten.drop (((L.take i).map List.length).sum)).take (L.get ⟨i, h⟩).length)
      = L.get ⟨i, h⟩ := by
  intro L
  induction L with
  | nil =>
    intro i h
    exact absurd h (by simp)
  | cons x L ih =>
    intro i h
    cases i with
    | zero =>
      simp only [List.take_zero, List.map_nil, List.sum_nil, List.flatten_cons,
        List.drop_zero, List.get_cons_zero]
      exact List.take_left x L.flatten
    | succ i =>
      simp only [List.take_succ_cons, List.map_cons, List.sum_cons, List.flatten_cons,
        List.get_cons_succ]
      rw [← List.drop_drop, List.drop_left]
      exact ih i (by simpa using h)

/-- C7: run on the encoding of a well-formed record list with an index that
is a key-sorted permutation of the file's index, `rewrite_sorted_mmap`
produces exactly `sum(12 + len_i)` bytes; the `i`-th block of the output,
placed at the running sum of the preceding record sizes, is the `12 +
len_i` input bytes at `offset_i`; and the whole output is the encoding of
a key-ascending permutation of the input records — no record dropped,
duplicated, or truncated. -/
theorem claim_C7 (rs : List Record) (idx : List IndexRec)
    (hwf : ∀ r ∈ rs, r.payload.length = r.len)
    (hperm : List.Perm idx (build_index rs))
    (hsorted : idx.Pairwise keyLE) :
    (rewrite_sorted_mmap (encodeFile rs) idx).length = (idx.map fun e => 12 + e.len).sum ∧
    (∀ i (h : i < idx.length),
      ((rewrite_sorted_mmap (encodeFile rs) idx).drop
          (((idx.take i).map fun e => 12 + e.len).sum)).take (12 + (idx.get ⟨i, h⟩).len)
        = rec_block (encodeFile rs) (idx.get ⟨i, h⟩)) ∧
    ∃ rs2, List.Perm rs2 rs ∧ rs2.Pairwise (fun a b => a.key ≤ b.key) ∧
      rewrite_sorted_mmap (encodeFile rs) idx = encodeFile rs2 := by
  have hspec := index_entries_spec rs [] hwf
  simp only [List.length_nil, List.nil_append] at hspec
  have hspec2 : List.Forall₂
      (fun (e : IndexRec) (r : Record) =>
        decode_entry (encodeFile rs) e = r ∧
        rec_block (encodeFile rs) e = encodeRecord r)
      (build_index rs) rs := hspec
  -- every entry of idx decodes to a well-formed source record
  have hentry : ∀ e ∈ idx, ∃ r ∈ rs,
      decode_entry (encodeFile rs) e = r ∧ rec_block (encodeFile rs) e = encodeRecord r :=
    fun e he => forall₂_exists_of_mem hspec2 e (hperm.mem_iff.mp he)
  have hblock : ∀ e ∈ idx,
      rec_block (encodeFile rs) e = encodeRecord (decode_entry (encodeFile rs) e) := by
    intro e he
    rcases hentry e he with ⟨r, _, hdec, hblk⟩
    rw [hdec, hblk]
  have hblock_len : ∀ e ∈ idx, (rec_block (encodeFile rs) e).length = 12 + e.len := by
    intro e he
    rcases hentry e he with ⟨r, hrmem, hdec, hblk⟩
    have hlen_r : r.len = e.len := by rw [← hdec]; rfl
    rw [hblk, encodeRecord_length r (hwf r hrmem), hlen_r]
  have hdecode_map : (build_index rs).map (decode_entry (encodeFile rs)) = rs :=
    forall₂_map_eq (hspec2.imp fun _ _ hab => hab.1)
  refine ⟨?_, ?_, ?_⟩
  · -- total length
    unfold rewrite_sorted_mmap
    rw [List.length_flatten, List.map_map]
    refine congrArg List.sum (List.map_congr_left fun e he => ?_)
    exact hblock_len e he
  · -- per-entry position
    intro i h
    have hLlen : i < (idx.map (rec_block (encodeFile rs))).length := by simpa using h
    have hseg := flatten_drop_take (idx.map (rec_block (encodeFile rs))) i hLlen
    have hget : (idx.map (rec_block (encodeFile rs))).get ⟨i, hLlen⟩
        = rec_block (encodeFile rs) (idx.get ⟨i, h⟩) := by
      simp [List.get_eq_getElem, List.getElem_map]
    have hsum : (((idx.map (rec_block (encodeFile rs))).take i).map List.length).sum
        = ((idx.take i).map fun e => 12 + e.len).sum := by
      rw [← List.map_take, List.map_map]
      refine congrArg List.sum (List.map_congr_left fun e he => ?_)
      exact hblock_len e (List.take_subset i idx he)
    rw [hget, hsum, hblock_len (idx.get ⟨i, h⟩) (List.get_mem idx i h)] at hseg
    exact hseg
  · -- sorted permutation of the records
    refine ⟨idx.map (decode_entry (encodeFile rs)), ?_, ?_, ?_⟩
    · have := hperm.map (decode_entry (encodeFile rs))
      rwa [hdecode_map] at this
    · exact List.pairwise_map.mpr (hsorted.imp fun h => h)
    · unfold rewrite_sorted_mmap encodeFile
      rw [List.map_map]
      refine congrArg List.flatten (List.map_congr_left fun e he => ?_)
      exact hblock e he

/-- C7 witness: a two-record file (keys 5 and 3, one payload byte each)
rewritten through its key-sorted index. -/
theorem claim_C7_witness :
    (∀ r ∈ ([⟨5, 1, [9]⟩, ⟨3, 1, [8]⟩] : List Record), r.payload.length = r.len) ∧
    List.Perm ([⟨3, 13, 1⟩, ⟨5, 0, 1⟩] : List IndexRec)
      (build_index [⟨5, 1, [9]⟩, ⟨3, 1, [8]⟩]) ∧
    ([⟨3, 13, 1⟩, ⟨5, 0, 1⟩] : List IndexRec).Pairwise keyLE ∧
    ((rewrite_sorted_mmap (encodeFile [⟨5, 1, [9]⟩, ⟨3, 1, [8]⟩]) [⟨3, 13, 1⟩, ⟨5, 0, 1⟩]).length
        = (([⟨3, 13, 1⟩, ⟨5, 0, 1⟩] : List IndexRec).map fun e => 12 + e.len).sum ∧
      (∀ i (h : i < ([⟨3, 13, 1⟩, ⟨5, 0, 1⟩] : List IndexRec).length),
        ((rewrite_sorted_mmap (encodeFile [⟨5, 1, [9]⟩, ⟨3, 1, [8]⟩])
              [⟨3, 13, 1⟩, ⟨5, 0, 1⟩]).drop
            (((([⟨3, 13, 1⟩, ⟨5, 0, 1⟩] : List IndexRec).take i).map fun e => 12 + e.len).sum)).take
            (12 + (([⟨3, 13, 1⟩, ⟨5, 0, 1⟩] : List IndexRec).get ⟨i, h⟩).len)
          = rec_block (encodeFile [⟨5, 1, [9]⟩, ⟨3, 1, [8]⟩])
              (([⟨3, 13, 1⟩, ⟨5, 0, 1⟩] : List IndexRec).get ⟨i, h⟩)) ∧
      ∃ rs2, List.Perm rs2 ([⟨5, 1, [9]⟩, ⟨3, 1, [8]⟩] : List Record) ∧
        rs2.Pairwise (fun a b => a.key ≤ b.key) ∧
        rewrite_sorted_mmap (encodeFile [⟨5, 1, [9]⟩, ⟨3, 1, [8]⟩]) [⟨3, 13, 1⟩, ⟨5, 0, 1⟩]
          = encodeFile rs2) :=
  ⟨by decide, by decide, by decide,
    claim_C7 [⟨5, 1, [9]⟩, ⟨3, 1, [8]⟩] [⟨3, 13, 1⟩, ⟨5, 0, 1⟩]
      (by decide) (by decide) (by decide)⟩
